import Mathlib

/-!
Verification of the segment tree implementation in `src/segtree.cpp` and its
near-identical twin `src/unnamed/part_000` (a generic segment tree with
point update and range query, flat `2v` / `2v+1` heap-style node addressing).

The C++ class `segment_tree<T>` is embedded shallowly:

* the backing array `std::vector<T> tree` (allocated with `4*n` slots, all
  initialised to `T(0)`) is modelled as a total map `Nat → T`, with
  `tree[v] = x` modelled by the pointwise override `updSlot`;
* `T(0)` is modelled by a `Zero T` instance;
* the stored combiner `std::function<T(T,T)> foo` is a field `foo : T → T → T`;
* the recursive private members `build`, `update`, `get` become total Lean
  functions; the preconditions that make the C++ recursion terminate
  (`l ≤ r`, and for the query the invariants relating the query range to the
  node range) are carried as explicit hypothesis arguments, which hold at
  every call site reachable from the public interface.

The logical contents of a tree are modelled by a `List T` of current values;
`Represents` is the structural invariant tying the slot array to those values.
-/

/-- Assignment `tree[i] = x` on the flat node-slot array, modelled as a
pointwise override of a total map. -/
def updSlot {T : Type} (tr : Nat → T) (i : Nat) (x : T) : Nat → T :=
  fun j => if j = i then x else tr j

/-- One call through the public interface of a segment tree: either
`update_point point val` or a `get left right` query. -/
inductive Op (T : Type) where
  | upd : Nat → T → Op T
  | query : Nat → Nat → Op T

/-- Embedding of the private member `segment_tree::build` of `src/segtree.cpp`
(lines 12-21): recursively builds the subtree of node `v` covering `[l, r]`
from the initial sequence `vec`.  The C++ parameter is declared
`const std::vector<int>&`; the class is only instantiated at `T = int`, where
this agrees with the element type, so the embedding types it as `List T`. -/
def build {T : Type} [Zero T] (foo : T → T → T) (vec : List T) (tr : Nat → T)
    (v l r : Nat) (h : l ≤ r) : Nat → T :=
  if hl : l = r then
    updSlot tr v (vec.getD l 0)
  else
    let t1 := build foo vec tr (2 * v) l ((l + r) / 2) (by omega)
    let t2 := build foo vec t1 (2 * v + 1) ((l + r) / 2 + 1) r (by omega)
    updSlot t2 v (foo (t2 (2 * v)) (t2 (2 * v + 1)))
termination_by r - l
decreasing_by all_goals omega

/-- Embedding of the private member `segment_tree::update` of `src/segtree.cpp`
(lines 23-36): point assignment at index `idx` inside the subtree of node `v`
covering `[l, r]`, recomputing each ancestor slot on the way back up. -/
def update {T : Type} (foo : T → T → T) (idx : Nat) (val : T) (tr : Nat → T)
    (v l r : Nat) (h : l ≤ r) : Nat → T :=
  if hl : l = r then
    updSlot tr v val
  else
    let t1 :=
      if idx ≤ (l + r) / 2 then
        update foo idx val tr (2 * v) l ((l + r) / 2) (by omega)
      else
        update foo idx val tr (2 * v + 1) ((l + r) / 2 + 1) r (by omega)
    updSlot t1 v (foo (t1 (2 * v)) (t1 (2 * v + 1)))
termination_by r - l
decreasing_by all_goals omega

/-- Embedding of the private member `segment_tree::get` of `src/segtree.cpp`
(lines 38-54): range query over `[left, right]` in the subtree of node `v`
covering `[l, r]`, with the usual three-way overlap case analysis.  The
hypothesis records the relations between query range and node range that hold
at every reachable call and make the recursion well founded. -/
def getAux {T : Type} (foo : T → T → T) (tr : Nat → T) (left right v l r : Nat)
    (h : l ≤ r ∧ left ≤ r ∧ l ≤ right ∧ left ≤ right) : T :=
  if hc : left ≤ l ∧ r ≤ right then
    tr v
  else if hm : right ≤ (l + r) / 2 then
    getAux foo tr left right (2 * v) l ((l + r) / 2) (by omega)
  else if hm2 : (l + r) / 2 < left then
    getAux foo tr left right (2 * v + 1) ((l + r) / 2 + 1) r (by omega)
  else
    foo (getAux foo tr left right (2 * v) l ((l + r) / 2) (by omega))
      (getAux foo tr left right (2 * v + 1) ((l + r) / 2 + 1) r (by omega))
termination_by r - l
decreasing_by all_goals omega

/-- State-transformer reading of the same private member `segment_tree::get`:
in C++ the method receives the object state (`this`), so its faithful stateful
embedding returns the result together with the state the call leaves behind.
The body threads the slot array through the calls exactly in execution order;
since the source performs only reads, the returned state is provably the input
state (claim about absence of mutation). -/
def getAuxSt {T : Type} (foo : T → T → T) (tr : Nat → T) (left right v l r : Nat)
    (h : l ≤ r ∧ left ≤ r ∧ l ≤ right ∧ left ≤ right) : T × (Nat → T) :=
  if hc : left ≤ l ∧ r ≤ right then
    (tr v, tr)
  else if hm : right ≤ (l + r) / 2 then
    getAuxSt foo tr left right (2 * v) l ((l + r) / 2) (by omega)
  else if hm2 : (l + r) / 2 < left then
    getAuxSt foo tr left right (2 * v + 1) ((l + r) / 2 + 1) r (by omega)
  else
    let p1 := getAuxSt foo tr left right (2 * v) l ((l + r) / 2) (by omega)
    let p2 := getAuxSt foo p1.2 left right (2 * v + 1) ((l + r) / 2 + 1) r (by omega)
    (foo p1.1 p2.1, p2.2)
termination_by r - l
decreasing_by all_goals omega

/-- Embedding of the class `segment_tree<T>` of `src/segtree.cpp` (lines 5-94):
logical size `n`, flat slot array `tree`, stored combiner `foo`. -/
structure segment_tree (T : Type) where
  n : Nat
  tree : Nat → T
  foo : T → T → T

/-- Embedding of the constructor `segment_tree(int n, foo)` (lines 57-59):
all `4*n` slots are initialised to `T(0)` and no build pass runs. -/
def segment_tree.ofSize {T : Type} [Zero T] (n : Nat) (foo : T → T → T) :
    segment_tree T :=
  ⟨n, fun _ => 0, foo⟩

/-- Embedding of the constructor `segment_tree(int n)` (lines 61-64): like
`ofSize` with the default combiner `a + b`. -/
def segment_tree.ofSizeSum {T : Type} [Zero T] [Add T] (n : Nat) : segment_tree T :=
  ⟨n, fun _ => 0, fun a b => a + b⟩

/-- Embedding of the constructor `segment_tree(const std::vector<T>& vec, foo)`
(lines 66-72): `n = vec.size()`, slots initialised to `T(0)`, then
`build(vec, 1, 0, n - 1)` when `n != 0`. -/
def segment_tree.ofVec {T : Type} [Zero T] (vec : List T) (foo : T → T → T) :
    segment_tree T :=
  if _h : vec.length ≠ 0 then
    ⟨vec.length, build foo vec (fun _ => 0) 1 0 (vec.length - 1) (by omega), foo⟩
  else
    ⟨vec.length, fun _ => 0, foo⟩

/-- Embedding of the constructor `segment_tree(const std::vector<T>& vec)`
(lines 74-81): like `ofVec` with the default combiner `a + b`. -/
def segment_tree.ofVecSum {T : Type} [Zero T] [Add T] (vec : List T) : segment_tree T :=
  if _h : vec.length ≠ 0 then
    ⟨vec.length, build (fun a b => a + b) vec (fun _ => 0) 1 0 (vec.length - 1) (by omega),
      fun a b => a + b⟩
  else
    ⟨vec.length, fun _ => 0, fun a b => a + b⟩

/-- Embedding of the public member `segment_tree::update_point` (lines 83-86):
guarded point update, a no-op when `point >= n`. -/
def segment_tree.update_point {T : Type} (st : segment_tree T) (point : Nat)
    (new_val : T) : segment_tree T :=
  if _h : point < st.n then
    { st with tree := update st.foo point new_val st.tree 1 0 (st.n - 1) (by omega) }
  else st

/-- Embedding of the public member `segment_tree::get` (lines 88-93): guarded
range query, returning `T(0)` when the range is ill-formed. -/
def segment_tree.get {T : Type} [Zero T] (st : segment_tree T) (left right : Nat) : T :=
  if h : left ≤ right ∧ right < st.n then
    getAux st.foo st.tree left right 1 0 (st.n - 1) (by omega)
  else 0

/-- State-transformer reading of the public member `segment_tree::get`,
mirroring `segment_tree.get` but also returning the object state left behind
by the call (built on `getAuxSt`). -/
def segment_tree.getSt {T : Type} [Zero T] (st : segment_tree T) (left right : Nat) :
    T × segment_tree T :=
  if h : left ≤ right ∧ right < st.n then
    let p := getAuxSt st.foo st.tree left right 1 0 (st.n - 1) (by omega)
    (p.1, { st with tree := p.2 })
  else (0, st)

/-- Runs a list of interface calls on a tree, collecting the query results in
order; updates mutate the state and produce no output. -/
def segment_tree.runOps {T : Type} [Zero T] (st : segment_tree T) :
    List (Op T) → List T
  | [] => []
  | Op.upd i x :: rest => (st.update_point i x).runOps rest
  | Op.query a b :: rest => st.get a b :: st.runOps rest

/-- Applies a list of `update_point` calls, in order. -/
def applyUpdates {T : Type} (st : segment_tree T) : List (Nat × T) → segment_tree T
  | [] => st
  | (i, x) :: rest => applyUpdates (st.update_point i x) rest

namespace part000

/-- Embedding of the private member `segment_tree::build` of
`src/unnamed/part_000` (lines 26-35); here the source parameter is
`const std::vector<T>&`. -/
def build {T : Type} [Zero T] (foo : T → T → T) (vec : List T) (tr : Nat → T)
    (v l r : Nat) (h : l ≤ r) : Nat → T :=
  if hl : l = r then
    updSlot tr v (vec.getD l 0)
  else
    let t1 := build foo vec tr (2 * v) l ((l + r) / 2) (by omega)
    let t2 := build foo vec t1 (2 * v + 1) ((l + r) / 2 + 1) r (by omega)
    updSlot t2 v (foo (t2 (2 * v)) (t2 (2 * v + 1)))
termination_by r - l
decreasing_by all_goals omega

/-- Embedding of the private member `segment_tree::update` of
`src/unnamed/part_000` (lines 39-52). -/
def update {T : Type} (foo : T → T → T) (idx : Nat) (val : T) (tr : Nat → T)
    (v l r : Nat) (h : l ≤ r) : Nat → T :=
  if hl : l = r then
    updSlot tr v val
  else
    let t1 :=
      if idx ≤ (l + r) / 2 then
        update foo idx val tr (2 * v) l ((l + r) / 2) (by omega)
      else
        update foo idx val tr (2 * v + 1) ((l + r) / 2 + 1) r (by omega)
    updSlot t1 v (foo (t1 (2 * v)) (t1 (2 * v + 1)))
termination_by r - l
decreasing_by all_goals omega

/-- Embedding of the private member `segment_tree::get` of
`src/unnamed/part_000` (lines 56-72). -/
def getAux {T : Type} (foo : T → T → T) (tr : Nat → T) (left right v l r : Nat)
    (h : l ≤ r ∧ left ≤ r ∧ l ≤ right ∧ left ≤ right) : T :=
  if hc : left ≤ l ∧ r ≤ right then
    tr v
  else if hm : right ≤ (l + r) / 2 then
    getAux foo tr left right (2 * v) l ((l + r) / 2) (by omega)
  else if hm2 : (l + r) / 2 < left then
    getAux foo tr left right (2 * v + 1) ((l + r) / 2 + 1) r (by omega)
  else
    foo (getAux foo tr left right (2 * v) l ((l + r) / 2) (by omega))
      (getAux foo tr left right (2 * v + 1) ((l + r) / 2 + 1) r (by omega))
termination_by r - l
decreasing_by all_goals omega

/-- Embedding of the class `segment_tree<T>` of `src/unnamed/part_000`
(lines 18-129). -/
structure segment_tree (T : Type) where
  n : Nat
  tree : Nat → T
  foo : T → T → T

/-- Embedding of the constructor `segment_tree(int n, foo)` of
`src/unnamed/part_000` (lines 86-88). -/
def segment_tree.ofSize {T : Type} [Zero T] (n : Nat) (foo : T → T → T) :
    segment_tree T :=
  ⟨n, fun _ => 0, foo⟩

/-- Embedding of the constructor `segment_tree(int n)` of
`src/unnamed/part_000` (lines 92-95). -/
def segment_tree.ofSizeSum {T : Type} [Zero T] [Add T] (n : Nat) : segment_tree T :=
  ⟨n, fun _ => 0, fun a b => a + b⟩

/-- Embedding of the constructor `segment_tree(const std::vector<T>& vec, foo)`
of `src/unnamed/part_000` (lines 99-105). -/
def segment_tree.ofVec {T : Type} [Zero T] (vec : List T) (foo : T → T → T) :
    segment_tree T :=
  if _h : vec.length ≠ 0 then
    ⟨vec.length, build foo vec (fun _ => 0) 1 0 (vec.length - 1) (by omega), foo⟩
  else
    ⟨vec.length, fun _ => 0, foo⟩

/-- Embedding of the constructor `segment_tree(const std::vector<T>& vec)` of
`src/unnamed/part_000` (lines 109-116). -/
def segment_tree.ofVecSum {T : Type} [Zero T] [Add T] (vec : List T) : segment_tree T :=
  if _h : vec.length ≠ 0 then
    ⟨vec.length, build (fun a b => a + b) vec (fun _ => 0) 1 0 (vec.length - 1) (by omega),
      fun a b => a + b⟩
  else
    ⟨vec.length, fun _ => 0, fun a b => a + b⟩

/-- Embedding of the public member `segment_tree::update_point` of
`src/unnamed/part_000` (lines 118-121). -/
def segment_tree.update_point {T : Type} (st : segment_tree T) (point : Nat)
    (new_val : T) : segment_tree T :=
  if _h : point < st.n then
    { st with tree := update st.foo point new_val st.tree 1 0 (st.n - 1) (by omega) }
  else st

/-- Embedding of the public member `segment_tree::get` of `src/unnamed/part_000`
(lines 123-128). -/
def segment_tree.get {T : Type} [Zero T] (st : segment_tree T) (left right : Nat) : T :=
  if h : left ≤ right ∧ right < st.n then
    getAux st.foo st.tree left right 1 0 (st.n - 1) (by omega)
  else 0

/-- Runs a list of interface calls on a `part_000` tree, collecting query
results in order. -/
def segment_tree.runOps {T : Type} [Zero T] (st : segment_tree T) :
    List (Op T) → List T
  | [] => []
  | Op.upd i x :: rest => (st.update_point i x).runOps rest
  | Op.query a b :: rest => st.get a b :: st.runOps rest

end part000

/-! ### Logical model -/

/-- Left-to-right fold of the `k + 1` values at positions `l .. l + k`:
`foo (... (foo vals[l] vals[l+1]) ...) vals[l+k]`, with the partial result of
the earlier positions always passed as the first argument. -/
def rangeFoldAux {T : Type} [Zero T] (foo : T → T → T) (vals : List T) (l : Nat) :
    Nat → T
  | 0 => vals.getD l 0
  | k + 1 => foo (rangeFoldAux foo vals l k) (vals.getD (l + k + 1) 0)

/-- Fold of `vals[left ..= right]` under `foo` in range order (left partial
result first). -/
def rangeFold {T : Type} [Zero T] (foo : T → T → T) (vals : List T)
    (left right : Nat) : T :=
  rangeFoldAux foo vals left (right - left)

/-- Fold of `vals[l ..= r]` in the pairing order fixed by the tree shape:
split at `mid = (l+r)/2`, left subfold combined with right subfold. -/
def treeFold {T : Type} [Zero T] (foo : T → T → T) (vals : List T) (l r : Nat)
    (h : l ≤ r) : T :=
  if hl : l = r then vals.getD l 0
  else
    foo (treeFold foo vals l ((l + r) / 2) (by omega))
      (treeFold foo vals ((l + r) / 2 + 1) r (by omega))
termination_by r - l
decreasing_by all_goals omega

/-- Applies a list of logical point writes to the value sequence, in order
(an out-of-range write leaves the list unchanged, like `update_point`). -/
def applySets {T : Type} (vals : List T) : List (Nat × T) → List T
  | [] => vals
  | (i, x) :: rest => applySets (vals.set i x) rest

/-- Slot `u` lies in the subtree of slot `v` under the implicit heap
addressing (`u` reaches `v` by iterated halving). -/
def isDesc (v u : Nat) : Prop := ∃ k, u / 2 ^ k = v

/-- Structural invariant: the slot array `tr` represents the value sequence
`vals` on the subtree of node `v` covering `[l, r]`: leaves hold the current
values and every internal slot holds `foo` of its two child slots. -/
inductive Represents {T : Type} [Zero T] (foo : T → T → T) (vals : List T)
    (tr : Nat → T) : Nat → Nat → Nat → Prop where
  | leaf (v l : Nat) : tr v = vals.getD l 0 → Represents foo vals tr v l l
  | node (v l r : Nat) : l < r →
      Represents foo vals tr (2 * v) l ((l + r) / 2) →
      Represents foo vals tr (2 * v + 1) ((l + r) / 2 + 1) r →
      tr v = foo (tr (2 * v)) (tr (2 * v + 1)) →
      Represents foo vals tr v l r

/-- Node `v` covers range `[l, r]` in a tree of logical size `n`: the ranges
produced by the recursive decomposition from the root slot `1` covering
`[0, n-1]`, splitting `[l, r]` with `l < r` into `[l, mid]` at slot `2v` and
`[mid+1, r]` at slot `2v+1`. -/
inductive Covers (n : Nat) : Nat → Nat → Nat → Prop where
  | root : 0 < n → Covers n 1 0 (n - 1)
  | left (v l r : Nat) : Covers n v l r → l < r → Covers n (2 * v) l ((l + r) / 2)
  | right (v l r : Nat) : Covers n v l r → l < r →
      Covers n (2 * v + 1) ((l + r) / 2 + 1) r

/-- State invariant of a reachable tree: size matches the logical value
sequence, the stored combiner is `foo`, and (when nonempty) the root subtree
represents the values. -/
def Sound {T : Type} [Zero T] (foo : T → T → T) (vals : List T)
    (st : segment_tree T) : Prop :=
  st.n = vals.length ∧ st.foo = foo ∧
    (0 < st.n → Represents foo vals st.tree 1 0 (st.n - 1))

/-- A `src/segtree.cpp` tree and a `src/unnamed/part_000` tree agree as
states: same size, same slot array, same combiner. -/
def Agrees {T : Type} (st : segment_tree T) (st' : part000.segment_tree T) : Prop :=
  st.n = st'.n ∧ st.tree = st'.tree ∧ st.foo = st'.foo

/-! ### Recursion depth of the three algorithms

Each function below is defined by literally the same recursion pattern and
case analysis as the corresponding algorithm (`build`, `update`, the private
`get`) and counts the depth of the call tree; its totality in Lean is the
termination of that recursion, established by the strictly shrinking measure
`r - l`. -/

/-- Depth of the recursion of `segment_tree::build` on the node range `[l, r]`. -/
def buildDepth (l r : Nat) (h : l ≤ r) : Nat :=
  if hl : l = r then 1
  else
    1 + max (buildDepth l ((l + r) / 2) (by omega))
      (buildDepth ((l + r) / 2 + 1) r (by omega))
termination_by r - l
decreasing_by all_goals omega

/-- Depth of the recursion of `segment_tree::update` on the node range `[l, r]`. -/
def updateDepth (idx l r : Nat) (h : l ≤ r) : Nat :=
  if hl : l = r then 1
  else if idx ≤ (l + r) / 2 then
    1 + updateDepth idx l ((l + r) / 2) (by omega)
  else
    1 + updateDepth idx ((l + r) / 2 + 1) r (by omega)
termination_by r - l
decreasing_by all_goals omega

/-- Depth of the recursion of the private `segment_tree::get` on the node
range `[l, r]` for the query range `[left, right]`. -/
def getDepth (left right l r : Nat)
    (h : l ≤ r ∧ left ≤ r ∧ l ≤ right ∧ left ≤ right) : Nat :=
  if hc : left ≤ l ∧ r ≤ right then 1
  else if hm : right ≤ (l + r) / 2 then
    1 + getDepth left right l ((l + r) / 2) (by omega)
  else if hm2 : (l + r) / 2 < left then
    1 + getDepth left right ((l + r) / 2 + 1) r (by omega)
  else
    1 + max (getDepth left right l ((l + r) / 2) (by omega))
      (getDepth left right ((l + r) / 2 + 1) r (by omega))
termination_by r - l
decreasing_by all_goals omega

/-! ### Subtree slot addressing -/

theorem isDesc_self (v : Nat) : isDesc v v :=
  ⟨0, by simp⟩

theorem isDesc_of_left {v u : Nat} (h : isDesc (2 * v) u) : isDesc v u := by
  obtain ⟨k, hk⟩ := h
  exact ⟨k + 1, by rw [pow_succ, ← Nat.div_div_eq_div_mul, hk]; omega⟩

theorem isDesc_of_right {v u : Nat} (h : isDesc (2 * v + 1) u) : isDesc v u := by
  obtain ⟨k, hk⟩ := h
  exact ⟨k + 1, by rw [pow_succ, ← Nat.div_div_eq_div_mul, hk]; omega⟩

theorem not_isDesc_left_self {v : Nat} (hv : 1 ≤ v) : ¬ isDesc (2 * v) v := by
  rintro ⟨k, hk⟩
  have := Nat.div_le_self v (2 ^ k)
  omega

theorem not_isDesc_right_self (v : Nat) : ¬ isDesc (2 * v + 1) v := by
  rintro ⟨k, hk⟩
  have := Nat.div_le_self v (2 ^ k)
  omega

theorem div_pow_chain {u w : Nat} (j m : Nat) (h : u / 2 ^ j = w) :
    u / 2 ^ (j + m) = w / 2 ^ m := by
  rw [pow_add, ← Nat.div_div_eq_div_mul, h]

/-- The two child subtrees of a node `v ≥ 1` occupy disjoint slot sets. -/
theorem isDesc_disjoint {v u : Nat} (hv : 1 ≤ v) (h1 : isDesc (2 * v) u)
    (h2 : isDesc (2 * v + 1) u) : False := by
  obtain ⟨j, hj⟩ := h1
  obtain ⟨k, hk⟩ := h2
  have hpow : ∀ m : Nat, 1 ≤ m → 2 ≤ 2 ^ m := fun m hm => by
    calc 2 = 2 ^ 1 := (pow_one 2).symm
    _ ≤ 2 ^ m := Nat.pow_le_pow_right (by omega) hm
  rcases Nat.le_total j k with hle | hle
  · have e := div_pow_chain j (k - j) hj
    rw [Nat.add_sub_cancel' hle, hk] at e
    rcases Nat.eq_zero_or_pos (k - j) with h0 | h0
    · rw [h0] at e; simp at e
    · have hd : 2 * v / 2 ^ (k - j) ≤ 2 * v / 2 :=
        Nat.div_le_div_left (hpow _ h0) (by omega)
      omega
  · have e := div_pow_chain k (j - k) hk
    rw [Nat.add_sub_cancel' hle, hj] at e
    rcases Nat.eq_zero_or_pos (j - k) with h0 | h0
    · rw [h0] at e; simp at e
    · have hd : (2 * v + 1) / 2 ^ (j - k) ≤ (2 * v + 1) / 2 :=
        Nat.div_le_div_left (hpow _ h0) (by omega)
      omega

/-! ### Frame lemmas: `build` and `update` write only subtree slots -/

theorem build_frame {T : Type} [Zero T] (foo : T → T → T) (vec : List T) :
    ∀ (k : Nat) (tr : Nat → T) (v l r : Nat) (h : l ≤ r), r - l = k →
      ∀ u, ¬ isDesc v u → build foo vec tr v l r h u = tr u := by
  intro k
  induction k using Nat.strong_induction_on with
  | _ k ih =>
    intro tr v l r h hk u hu
    have huv : u ≠ v := fun e => hu (e ▸ isDesc_self v)
    rw [build]
    split
    · simp [updSlot, huv]
    · next hl =>
      simp only [updSlot, if_neg huv]
      rw [ih (r - ((l + r) / 2 + 1)) (by omega) _ _ _ _ (by omega) rfl u
        (fun hd => hu (isDesc_of_right hd))]
      rw [ih ((l + r) / 2 - l) (by omega) _ _ _ _ (by omega) rfl u
        (fun hd => hu (isDesc_of_left hd))]

theorem update_frame {T : Type} (foo : T → T → T) (idx : Nat) (val : T) :
    ∀ (k : Nat) (tr : Nat → T) (v l r : Nat) (h : l ≤ r), r - l = k →
      ∀ u, ¬ isDesc v u → update foo idx val tr v l r h u = tr u := by
  intro k
  induction k using Nat.strong_induction_on with
  | _ k ih =>
    intro tr v l r h hk u hu
    have huv : u ≠ v := fun e => hu (e ▸ isDesc_self v)
    rw [update]
    split
    · simp [updSlot, huv]
    · next hl =>
      simp only [updSlot, if_neg huv]
      split
      · rw [ih ((l + r) / 2 - l) (by omega) _ _ _ _ (by omega) rfl u
          (fun hd => hu (isDesc_of_left hd))]
      · rw [ih (r - ((l + r) / 2 + 1)) (by omega) _ _ _ _ (by omega) rfl u
          (fun hd => hu (isDesc_of_right hd))]

theorem isDesc_left_child (v : Nat) : isDesc v (2 * v) :=
  ⟨1, by rw [pow_one]; omega⟩

theorem isDesc_right_child (v : Nat) : isDesc v (2 * v + 1) :=
  ⟨1, by rw [pow_one]; omega⟩

/-! ### Invariant lemmas -/

theorem Represents.le_range {T : Type} [Zero T] {foo : T → T → T} {vals : List T}
    {tr : Nat → T} {v l r : Nat} (h : Represents foo vals tr v l r) : l ≤ r := by
  cases h with
  | leaf _ => exact Nat.le_refl _
  | node hlr _ _ _ => omega

/-- `Represents` only looks at slots inside the subtree of `v`: it transfers
to any slot array agreeing there. -/
theorem represents_congr {T : Type} [Zero T] {foo : T → T → T} {vals : List T}
    {tr tr' : Nat → T} {v l r : Nat} (h : Represents foo vals tr v l r)
    (hag : ∀ u, isDesc v u → tr u = tr' u) : Represents foo vals tr' v l r := by
  induction h generalizing tr' with
  | leaf v l heq =>
    exact Represents.leaf _ _ ((hag _ (isDesc_self _)).symm.trans heq)
  | node v l r hlr r1 r2 heq ih1 ih2 =>
    refine Represents.node _ _ _ hlr
      (ih1 fun u hd => hag u (isDesc_of_left hd))
      (ih2 fun u hd => hag u (isDesc_of_right hd)) ?_
    rw [← hag _ (isDesc_self _), ← hag _ (isDesc_left_child _),
      ← hag _ (isDesc_right_child _)]
    exact heq

/-- `Represents` only looks at value positions inside `[l, r]`: it transfers
to any value sequence agreeing there. -/
theorem represents_vals_congr {T : Type} [Zero T] {foo : T → T → T}
    {vals vals' : List T} {tr : Nat → T} {v l r : Nat}
    (h : Represents foo vals tr v l r)
    (hag : ∀ j, l ≤ j → j ≤ r → vals.getD j 0 = vals'.getD j 0) :
    Represents foo vals' tr v l r := by
  induction h with
  | leaf v l heq =>
    exact Represents.leaf _ _ (heq.trans (hag l (Nat.le_refl l) (Nat.le_refl l)))
  | node v l r hlr r1 r2 heq ih1 ih2 =>
    exact Represents.node _ _ _ hlr
      (ih1 fun j h1 h2 => hag j h1 (by omega))
      (ih2 fun j h1 h2 => hag j (by omega) h2)
      heq

theorem getD_set_self {T : Type} (L : List T) (i : Nat) (a d : T)
    (h : i < L.length) : (L.set i a).getD i d = a := by
  simp [List.getD, List.getElem?_set_self', h]

theorem getD_set_ne {T : Type} (L : List T) (i j : Nat) (a d : T)
    (h : i ≠ j) : (L.set i a).getD j d = L.getD j d := by
  simp [List.getD, List.getElem?_set_ne h]

/-- Correctness of `build`: afterwards the subtree of `v` represents `vec`. -/
theorem build_represents {T : Type} [Zero T] (foo : T → T → T) (vec : List T) :
    ∀ (k : Nat) (tr : Nat → T) (v l r : Nat) (h : l ≤ r), r - l = k → 1 ≤ v →
      Represents foo vec (build foo vec tr v l r h) v l r := by
  intro k
  induction k using Nat.strong_induction_on with
  | _ k ih =>
    intro tr v l r h hk hv
    rw [build]
    split
    · next hl =>
      subst hl
      exact Represents.leaf v l (by simp [updSlot])
    · next hl =>
      dsimp only
      have hm1 : l ≤ (l + r) / 2 := by omega
      have hm2 : (l + r) / 2 + 1 ≤ r := by omega
      have R1 := ih ((l + r) / 2 - l) (by omega) tr (2 * v) l ((l + r) / 2)
        hm1 (by omega) (by omega)
      have R2 := ih (r - ((l + r) / 2 + 1)) (by omega)
        (build foo vec tr (2 * v) l ((l + r) / 2) hm1) (2 * v + 1)
        ((l + r) / 2 + 1) r hm2 (by omega) (by omega)
      have R1' := represents_congr R1 (fun u hd =>
        (build_frame foo vec (r - ((l + r) / 2 + 1)) _ (2 * v + 1)
          ((l + r) / 2 + 1) r hm2 rfl u
          (fun hd' => isDesc_disjoint hv hd hd')).symm)
      have e1 : 2 * v ≠ v := by omega
      have e2 : 2 * v + 1 ≠ v := by omega
      refine Represents.node v l r (by omega)
        (represents_congr R1' ?_) (represents_congr R2 ?_) ?_
      · intro u hd
        have huv : u ≠ v := fun e => not_isDesc_left_self hv (e ▸ hd)
        simp [updSlot, huv]
      · intro u hd
        have huv : u ≠ v := fun e => not_isDesc_right_self v (e ▸ hd)
        simp [updSlot, huv]
      · simp [updSlot, e1, e2]

/-- Correctness of `update`: it rebuilds the subtree of `v` so that it
represents the value sequence with position `idx` overwritten. -/
theorem update_represents {T : Type} [Zero T] (foo : T → T → T) (idx : Nat) (val : T) :
    ∀ (k : Nat) (vals : List T) (tr : Nat → T) (v l r : Nat) (h : l ≤ r),
      r - l = k → 1 ≤ v → l ≤ idx → idx ≤ r → idx < vals.length →
      Represents foo vals tr v l r →
      Represents foo (vals.set idx val) (update foo idx val tr v l r h) v l r := by
  intro k
  induction k using Nat.strong_induction_on with
  | _ k ih =>
    intro vals tr v l r h hk hv hi1 hi2 hlen hrep
    rw [update]
    split
    · next hl =>
      subst hl
      have hil : idx = l := by omega
      subst hil
      refine Represents.leaf v idx ?_
      rw [getD_set_self vals idx val 0 hlen]
      simp [updSlot]
    · next hl =>
      cases hrep with
      | leaf _ => exact absurd rfl hl
      | node _ _ _ hlr r1 r2 heq =>
        dsimp only
        have e1 : 2 * v ≠ v := by omega
        have e2 : 2 * v + 1 ≠ v := by omega
        by_cases hidx : idx ≤ (l + r) / 2
        · rw [if_pos hidx]
          have hm1 : l ≤ (l + r) / 2 := by omega
          have R1 := ih ((l + r) / 2 - l) (by omega) vals tr (2 * v) l
            ((l + r) / 2) hm1 rfl (by omega) hi1 hidx hlen r1
          have R2a := represents_congr r2 (fun u hd =>
            (update_frame foo idx val ((l + r) / 2 - l) tr (2 * v) l
              ((l + r) / 2) hm1 rfl u
              (fun hd' => isDesc_disjoint hv hd' hd)).symm)
          have R2b := represents_vals_congr R2a (fun j hj1 hj2 =>
            (getD_set_ne vals idx j val 0 (by omega)).symm)
          refine Represents.node v l r (by omega)
            (represents_congr R1 ?_) (represents_congr R2b ?_) ?_
          · intro u hd
            have huv : u ≠ v := fun e => not_isDesc_left_self hv (e ▸ hd)
            simp [updSlot, huv]
          · intro u hd
            have huv : u ≠ v := fun e => not_isDesc_right_self v (e ▸ hd)
            simp [updSlot, huv]
          · simp [updSlot, e1, e2]
        · rw [if_neg hidx]
          have hm2 : (l + r) / 2 + 1 ≤ r := by omega
          have R2 := ih (r - ((l + r) / 2 + 1)) (by omega) vals tr (2 * v + 1)
            ((l + r) / 2 + 1) r hm2 rfl (by omega) (by omega) hi2 hlen r2
          have R1a := represents_congr r1 (fun u hd =>
            (update_frame foo idx val (r - ((l + r) / 2 + 1)) tr (2 * v + 1)
              ((l + r) / 2 + 1) r hm2 rfl u
              (fun hd' => isDesc_disjoint hv hd hd')).symm)
          have R1b := represents_vals_congr R1a (fun j hj1 hj2 =>
            (getD_set_ne vals idx j val 0 (by omega)).symm)
          refine Represents.node v l r (by omega)
            (represents_congr R1b ?_) (represents_congr R2 ?_) ?_
          · intro u hd
            have huv : u ≠ v := fun e => not_isDesc_left_self hv (e ▸ hd)
            simp [updSlot, huv]
          · intro u hd
            have huv : u ≠ v := fun e => not_isDesc_right_self v (e ▸ hd)
            simp [updSlot, huv]
          · simp [updSlot, e1, e2]

/-! ### Fold lemmas -/

theorem rangeFoldAux_zero {T : Type} [Zero T] (foo : T → T → T) (vals : List T)
    (l : Nat) : rangeFoldAux foo vals l 0 = vals.getD l 0 := rfl

theorem rangeFoldAux_succ {T : Type} [Zero T] (foo : T → T → T) (vals : List T)
    (l k : Nat) :
    rangeFoldAux foo vals l (k + 1) =
      foo (rangeFoldAux foo vals l k) (vals.getD (l + k + 1) 0) := rfl

/-- Splitting lemma for the range fold, for an associative combiner: the fold
of `[a, b]` decomposes at any midpoint `m` with the left part first. -/
theorem rangeFoldAux_append {T : Type} [Zero T] (foo : T → T → T) (vals : List T)
    (hassoc : ∀ a b c, foo (foo a b) c = foo a (foo b c)) :
    ∀ (k a m : Nat), a ≤ m →
      foo (rangeFoldAux foo vals a (m - a)) (rangeFoldAux foo vals (m + 1) k) =
        rangeFoldAux foo vals a (m + 1 + k - a) := by
  intro k
  induction k with
  | zero =>
    intro a m ham
    have e1 : m + 1 + 0 - a = (m - a) + 1 := by omega
    rw [e1, rangeFoldAux_zero, rangeFoldAux_succ]
    have e2 : a + (m - a) + 1 = m + 1 := by omega
    rw [e2]
  | succ k ih =>
    intro a m ham
    rw [rangeFoldAux_succ, ← hassoc, ih a m ham]
    have e1 : m + 1 + (k + 1) - a = (m + 1 + k - a) + 1 := by omega
    rw [e1, rangeFoldAux_succ]
    have e2 : a + (m + 1 + k - a) + 1 = m + 1 + k + 1 := by omega
    rw [e2]

theorem rangeFold_append {T : Type} [Zero T] (foo : T → T → T) (vals : List T)
    (hassoc : ∀ a b c, foo (foo a b) c = foo a (foo b c))
    (a m b : Nat) (h1 : a ≤ m) (h2 : m < b) :
    foo (rangeFold foo vals a m) (rangeFold foo vals (m + 1) b) =
      rangeFold foo vals a b := by
  unfold rangeFold
  have e := rangeFoldAux_append foo vals hassoc (b - (m + 1)) a m h1
  have e1 : m + 1 + (b - (m + 1)) - a = b - a := by omega
  rw [e1] at e
  exact e

/-- The tree-shaped fold only looks at value positions inside `[l, r]`. -/
theorem treeFold_congr {T : Type} [Zero T] (foo : T → T → T) :
    ∀ (k : Nat) (vals vals' : List T) (l r : Nat) (h : l ≤ r), r - l = k →
      (∀ j, l ≤ j → j ≤ r → vals.getD j 0 = vals'.getD j 0) →
      treeFold foo vals l r h = treeFold foo vals' l r h := by
  intro k
  induction k using Nat.strong_induction_on with
  | _ k ih =>
    intro vals vals' l r h hk hag
    conv_lhs => rw [treeFold]
    conv_rhs => rw [treeFold]
    by_cases hlr : l = r
    · rw [dif_pos hlr, dif_pos hlr]
      exact hag l (Nat.le_refl l) (by omega)
    · rw [dif_neg hlr, dif_neg hlr]
      rw [ih ((l + r) / 2 - l) (by omega) vals vals' l ((l + r) / 2) (by omega)
        rfl (fun j h1 h2 => hag j h1 (by omega))]
      rw [ih (r - ((l + r) / 2 + 1)) (by omega) vals vals' ((l + r) / 2 + 1) r
        (by omega) rfl (fun j h1 h2 => hag j (by omega) h2)]

/-- Under `Represents`, each slot stores the tree-shaped fold of its range
(no associativity needed). -/
theorem represents_treeFold {T : Type} [Zero T] {foo : T → T → T} {vals : List T}
    {tr : Nat → T} {v l r : Nat} (h : Represents foo vals tr v l r) :
    ∀ (hlr : l ≤ r), tr v = treeFold foo vals l r hlr := by
  induction h with
  | leaf v l heq =>
    intro hlr
    conv_rhs => rw [treeFold]
    rw [dif_pos rfl]
    exact heq
  | node v l r hlr' r1 r2 heq ih1 ih2 =>
    intro hlr
    conv_rhs => rw [treeFold]
    rw [dif_neg (by omega)]
    rw [heq, ih1 (by omega), ih2 (by omega)]

/-- For an associative combiner the tree-shaped fold agrees with the flat
range-order fold. -/
theorem treeFold_eq_rangeFold {T : Type} [Zero T] (foo : T → T → T)
    (hassoc : ∀ a b c, foo (foo a b) c = foo a (foo b c)) :
    ∀ (k : Nat) (vals : List T) (l r : Nat) (h : l ≤ r), r - l = k →
      treeFold foo vals l r h = rangeFold foo vals l r := by
  intro k
  induction k using Nat.strong_induction_on with
  | _ k ih =>
    intro vals l r h hk
    conv_lhs => rw [treeFold]
    by_cases hlr : l = r
    · subst hlr
      rw [dif_pos rfl]
      unfold rangeFold
      rw [Nat.sub_self, rangeFoldAux_zero]
    · rw [dif_neg hlr]
      rw [ih ((l + r) / 2 - l) (by omega) vals l ((l + r) / 2) (by omega) rfl]
      rw [ih (r - ((l + r) / 2 + 1)) (by omega) vals ((l + r) / 2 + 1) r
        (by omega) rfl]
      exact rangeFold_append foo vals hassoc l ((l + r) / 2) r (by omega) (by omega)

/-! ### Query correctness -/

/-- Main query lemma: on a subtree representing `vals`, the private `get`
returns the range-order fold of the intersection of the query range with the
node range (associativity of the combiner is required to merge the two
partial results of the straddling case). -/
theorem getAux_correct {T : Type} [Zero T] (foo : T → T → T)
    (hassoc : ∀ a b c, foo (foo a b) c = foo a (foo b c)) (vals : List T) :
    ∀ (k : Nat) (tr : Nat → T) (left right v l r : Nat)
      (h : l ≤ r ∧ left ≤ r ∧ l ≤ right ∧ left ≤ right), r - l = k →
      Represents foo vals tr v l r →
      getAux foo tr left right v l r h =
        rangeFold foo vals (max left l) (min right r) := by
  intro k
  induction k using Nat.strong_induction_on with
  | _ k ih =>
    intro tr left right v l r h hk hrep
    rw [getAux]
    split
    · next hc =>
      have e1 : max left l = l := by omega
      have e2 : min right r = r := by omega
      rw [e1, e2, represents_treeFold hrep h.1]
      exact treeFold_eq_rangeFold foo hassoc (r - l) vals l r h.1 rfl
    · next hc =>
      split
      · next hm =>
        cases hrep with
        | leaf _ _ _ => exact ((by omega : False)).elim
        | node _ _ _ hlr r1 r2 heq =>
          rw [ih ((l + r) / 2 - l) (by omega) tr left right (2 * v) l
            ((l + r) / 2) (by omega) rfl r1]
          have e : min right ((l + r) / 2) = min right r := by omega
          rw [e]
      · split
        · next hm2 =>
          cases hrep with
          | leaf _ _ _ => exact ((by omega : False)).elim
          | node _ _ _ hlr r1 r2 heq =>
            rw [ih (r - ((l + r) / 2 + 1)) (by omega) tr left right (2 * v + 1)
              ((l + r) / 2 + 1) r (by omega) rfl r2]
            have e : max left ((l + r) / 2 + 1) = max left l := by omega
            rw [e]
        · next hm2 =>
          next hm =>
          cases hrep with
          | leaf _ _ _ => exact ((by omega : False)).elim
          | node _ _ _ hlr r1 r2 heq =>
            rw [ih ((l + r) / 2 - l) (by omega) tr left right (2 * v) l
              ((l + r) / 2) (by omega) rfl r1]
            rw [ih (r - ((l + r) / 2 + 1)) (by omega) tr left right (2 * v + 1)
              ((l + r) / 2 + 1) r (by omega) rfl r2]
            have e1 : min right ((l + r) / 2) = (l + r) / 2 := by omega
            have e2 : max left ((l + r) / 2 + 1) = (l + r) / 2 + 1 := by omega
            rw [e1, e2]
            exact rangeFold_append foo vals hassoc (max left l) ((l + r) / 2)
              (min right r) (by omega) (by omega)

/-- Single-point query: on a subtree representing `vals`, `get(i, i)` returns
the current value at `i` (no associativity needed). -/
theorem getAux_point {T : Type} [Zero T] (foo : T → T → T) (vals : List T) :
    ∀ (k : Nat) (tr : Nat → T) (i v l r : Nat)
      (h : l ≤ r ∧ i ≤ r ∧ l ≤ i ∧ i ≤ i), r - l = k →
      Represents foo vals tr v l r →
      getAux foo tr i i v l r h = vals.getD i 0 := by
  intro k
  induction k using Nat.strong_induction_on with
  | _ k ih =>
    intro tr i v l r h hk hrep
    rw [getAux]
    split
    · next hc =>
      cases hrep with
      | leaf _ _ heq =>
        have e : l = i := by omega
        subst e
        exact heq
      | node _ _ _ hlr _ _ _ => exact ((by omega : False)).elim
    · next hc =>
      split
      · next hm =>
        cases hrep with
        | leaf _ _ _ => exact ((by omega : False)).elim
        | node _ _ _ hlr r1 r2 heq =>
          exact ih ((l + r) / 2 - l) (by omega) tr i (2 * v) l ((l + r) / 2)
            (by omega) rfl r1
      · split
        · next hm2 =>
          cases hrep with
          | leaf _ _ _ => exact ((by omega : False)).elim
          | node _ _ _ hlr r1 r2 heq =>
            exact ih (r - ((l + r) / 2 + 1)) (by omega) tr i (2 * v + 1)
              ((l + r) / 2 + 1) r (by omega) rfl r2
        · next hm2 =>
          next hm =>
          exact ((by omega : False)).elim

/-- The result of the private `get` depends only on the represented values
inside the query range: two represented trees whose value sequences agree on
`[left, right]` answer every query over `[left, right]` identically (no
associativity needed). -/
theorem getAux_tree_congr {T : Type} [Zero T] (foo : T → T → T)
    {vals vals' : List T} :
    ∀ (k : Nat) (tr tr' : Nat → T) (left right v l r : Nat)
      (h : l ≤ r ∧ left ≤ r ∧ l ≤ right ∧ left ≤ right), r - l = k →
      Represents foo vals tr v l r → Represents foo vals' tr' v l r →
      (∀ j, left ≤ j → j ≤ right → vals.getD j 0 = vals'.getD j 0) →
      getAux foo tr left right v l r h = getAux foo tr' left right v l r h := by
  intro k
  induction k using Nat.strong_induction_on with
  | _ k ih =>
    intro tr tr' left right v l r h hk hrep hrep' hag
    conv_lhs => rw [getAux]
    conv_rhs => rw [getAux]
    by_cases hc : left ≤ l ∧ r ≤ right
    · rw [dif_pos hc, dif_pos hc, represents_treeFold hrep h.1,
        represents_treeFold hrep' h.1]
      exact treeFold_congr foo (r - l) vals vals' l r h.1 rfl
        (fun j h1 h2 => hag j (by omega) (by omega))
    · rw [dif_neg hc, dif_neg hc]
      by_cases hm : right ≤ (l + r) / 2
      · rw [dif_pos hm, dif_pos hm]
        cases hrep with
        | leaf _ _ _ => exact ((by omega : False)).elim
        | node _ _ _ hlr r1 r2 heq =>
          cases hrep' with
          | leaf _ _ _ => exact ((by omega : False)).elim
          | node _ _ _ hlr' r1' r2' heq' =>
            exact ih ((l + r) / 2 - l) (by omega) tr tr' left right (2 * v) l
              ((l + r) / 2) (by omega) rfl r1 r1' hag
      · rw [dif_neg hm, dif_neg hm]
        by_cases hm2 : (l + r) / 2 < left
        · rw [dif_pos hm2, dif_pos hm2]
          cases hrep with
          | leaf _ _ _ => exact ((by omega : False)).elim
          | node _ _ _ hlr r1 r2 heq =>
            cases hrep' with
            | leaf _ _ _ => exact ((by omega : False)).elim
            | node _ _ _ hlr' r1' r2' heq' =>
              exact ih (r - ((l + r) / 2 + 1)) (by omega) tr tr' left right
                (2 * v + 1) ((l + r) / 2 + 1) r (by omega) rfl r2 r2' hag
        · rw [dif_neg hm2, dif_neg hm2]
          cases hrep with
          | leaf _ _ _ => exact ((by omega : False)).elim
          | node _ _ _ hlr r1 r2 heq =>
            cases hrep' with
            | leaf _ _ _ => exact ((by omega : False)).elim
            | node _ _ _ hlr' r1' r2' heq' =>
              rw [ih ((l + r) / 2 - l) (by omega) tr tr' left right (2 * v) l
                ((l + r) / 2) (by omega) rfl r1 r1' hag]
              rw [ih (r - ((l + r) / 2 + 1)) (by omega) tr tr' left right
                (2 * v + 1) ((l + r) / 2 + 1) r (by omega) rfl r2 r2' hag]

/-! ### State-level lemmas -/

theorem applySets_length {T : Type} :
    ∀ (ups : List (Nat × T)) (vals : List T),
      (applySets vals ups).length = vals.length := by
  intro ups
  induction ups with
  | nil => intro vals; rfl
  | cons p rest ih =>
    intro vals
    cases p with
    | mk i x =>
      show (applySets (vals.set i x) rest).length = vals.length
      rw [ih (vals.set i x), List.length_set]

theorem sound_ofVec {T : Type} [Zero T] (foo : T → T → T) (vec : List T) :
    Sound foo vec (segment_tree.ofVec vec foo) := by
  unfold Sound segment_tree.ofVec
  by_cases h : vec.length ≠ 0
  · rw [dif_pos h]
    refine ⟨rfl, rfl, fun hn => ?_⟩
    exact build_represents foo vec (vec.length - 1) (fun _ => 0) 1 0
      (vec.length - 1) (by omega) rfl (by omega)
  · rw [dif_neg h]
    refine ⟨rfl, rfl, fun hn => ?_⟩
    simp at hn
    omega

theorem sound_update_point {T : Type} [Zero T] {foo : T → T → T} {vals : List T}
    {st : segment_tree T} (hs : Sound foo vals st) (point : Nat) (val : T) :
    Sound foo (vals.set point val) (st.update_point point val) := by
  obtain ⟨hn, hf, hrep⟩ := hs
  unfold segment_tree.update_point
  by_cases hp : point < st.n
  · rw [dif_pos hp]
    refine ⟨?_, hf, fun h0 => ?_⟩
    · show st.n = (vals.set point val).length
      rw [List.length_set, hn]
    · show Represents foo (vals.set point val)
        (update st.foo point val st.tree 1 0 (st.n - 1) (by omega)) 1 0 (st.n - 1)
      rw [hf]
      exact update_represents foo point val (st.n - 1) vals st.tree 1 0
        (st.n - 1) (by omega) rfl (by omega) (by omega) (by omega) (by omega)
        (hrep (by omega))
  · rw [dif_neg hp]
    have e : vals.set point val = vals := List.set_eq_of_length_le (by omega)
    rw [e]
    exact ⟨hn, hf, hrep⟩

theorem sound_applyUpdates {T : Type} [Zero T] {foo : T → T → T} :
    ∀ (ups : List (Nat × T)) {vals : List T} {st : segment_tree T},
      Sound foo vals st → Sound foo (applySets vals ups) (applyUpdates st ups) := by
  intro ups
  induction ups with
  | nil => intro vals st hs; exact hs
  | cons p rest ih =>
    intro vals st hs
    cases p with
    | mk i x => exact ih (sound_update_point hs i x)

/-- Public query on a sound tree with a well-formed range computes the
range-order fold of the current values. -/
theorem get_sound {T : Type} [Zero T] {foo : T → T → T} {vals : List T}
    {st : segment_tree T}
    (hassoc : ∀ a b c, foo (foo a b) c = foo a (foo b c))
    (hs : Sound foo vals st) (left right : Nat)
    (h1 : left ≤ right) (h2 : right < st.n) :
    st.get left right = rangeFold foo vals left right := by
  obtain ⟨hn, hf, hrep⟩ := hs
  unfold segment_tree.get
  rw [dif_pos ⟨h1, h2⟩, hf]
  rw [getAux_correct foo hassoc vals (st.n - 1) st.tree left right 1 0
    (st.n - 1) (by omega) rfl (hrep (by omega))]
  have e1 : max left 0 = left := by omega
  have e2 : min right (st.n - 1) = right := by omega
  rw [e1, e2]

theorem update_point_n {T : Type} (st : segment_tree T) (p : Nat) (v : T) :
    (st.update_point p v).n = st.n := by
  unfold segment_tree.update_point
  split <;> rfl

theorem applyUpdates_n {T : Type} :
    ∀ (ups : List (Nat × T)) (st : segment_tree T),
      (applyUpdates st ups).n = st.n := by
  intro ups
  induction ups with
  | nil => intro st; rfl
  | cons p rest ih =>
    intro st
    cases p with
    | mk i x =>
      show (applyUpdates (st.update_point i x) rest).n = st.n
      rw [ih, update_point_n]

/-! ### The query mutates nothing -/

theorem getAuxSt_snd {T : Type} (foo : T → T → T) :
    ∀ (k : Nat) (tr : Nat → T) (left right v l r : Nat)
      (h : l ≤ r ∧ left ≤ r ∧ l ≤ right ∧ left ≤ right), r - l = k →
      (getAuxSt foo tr left right v l r h).2 = tr := by
  intro k
  induction k using Nat.strong_induction_on with
  | _ k ih =>
    intro tr left right v l r h hk
    rw [getAuxSt]
    split
    · rfl
    · next hc =>
      split
      · next hm =>
        exact ih ((l + r) / 2 - l) (by omega) tr left right (2 * v) l
          ((l + r) / 2) (by omega) rfl
      · split
        · next hm2 =>
          exact ih (r - ((l + r) / 2 + 1)) (by omega) tr left right (2 * v + 1)
            ((l + r) / 2 + 1) r (by omega) rfl
        · next hm2 =>
          next hm =>
          dsimp only
          rw [ih (r - ((l + r) / 2 + 1)) (by omega) _ left right (2 * v + 1)
            ((l + r) / 2 + 1) r (by omega) rfl]
          exact ih ((l + r) / 2 - l) (by omega) tr left right (2 * v) l
            ((l + r) / 2) (by omega) rfl

theorem getAuxSt_fst {T : Type} (foo : T → T → T) :
    ∀ (k : Nat) (tr : Nat → T) (left right v l r : Nat)
      (h : l ≤ r ∧ left ≤ r ∧ l ≤ right ∧ left ≤ right), r - l = k →
      (getAuxSt foo tr left right v l r h).1 =
        getAux foo tr left right v l r h := by
  intro k
  induction k using Nat.strong_induction_on with
  | _ k ih =>
    intro tr left right v l r h hk
    rw [getAuxSt, getAux]
    split
    · next hc => rfl
    · next hc =>
      split
      · next hm =>
        exact ih ((l + r) / 2 - l) (by omega) tr left right (2 * v) l
          ((l + r) / 2) (by omega) rfl
      · next hm =>
        split
        · next hm2 =>
          exact ih (r - ((l + r) / 2 + 1)) (by omega) tr left right (2 * v + 1)
            ((l + r) / 2 + 1) r (by omega) rfl
        · next hm2 =>
          dsimp only
          rw [getAuxSt_snd foo ((l + r) / 2 - l) tr left right (2 * v) l
            ((l + r) / 2) (by omega) rfl]
          rw [ih ((l + r) / 2 - l) (by omega) tr left right (2 * v) l
            ((l + r) / 2) (by omega) rfl]
          rw [ih (r - ((l + r) / 2 + 1)) (by omega) tr left right (2 * v + 1)
            ((l + r) / 2 + 1) r (by omega) rfl]

/-- The public stateful query leaves the object unchanged and returns the
same value as the pure reading. -/
theorem getSt_spec {T : Type} [Zero T] (st : segment_tree T) (left right : Nat) :
    (st.getSt left right).2 = st ∧ (st.getSt left right).1 = st.get left right := by
  unfold segment_tree.getSt segment_tree.get
  by_cases h : left ≤ right ∧ right < st.n
  · rw [dif_pos h, dif_pos h]
    dsimp only
    constructor
    · rw [getAuxSt_snd st.foo (st.n - 1) st.tree left right 1 0 (st.n - 1)
        (by omega) rfl]
    · rw [getAuxSt_fst st.foo (st.n - 1) st.tree left right 1 0 (st.n - 1)
        (by omega) rfl]
  · rw [dif_neg h, dif_neg h]
    exact ⟨rfl, rfl⟩

/-- Every covered node of a represented tree carries its own `Represents`
instance; in particular internal covered nodes satisfy the combine equation. -/
theorem covers_represents {T : Type} [Zero T] {foo : T → T → T} {vals : List T}
    {tr : Nat → T} {n : Nat} (hroot : Represents foo vals tr 1 0 (n - 1)) :
    ∀ {v l r : Nat}, Covers n v l r → Represents foo vals tr v l r := by
  intro v l r hcov
  induction hcov with
  | root h0 => exact hroot
  | left v l r hc hlr ih =>
    cases ih with
    | leaf _ _ _ => exact ((by omega : False)).elim
    | node _ _ _ hlr' r1 r2 heq => exact r1
  | right v l r hc hlr ih =>
    cases ih with
    | leaf _ _ _ => exact ((by omega : False)).elim
    | node _ _ _ hlr' r1 r2 heq => exact r2

/-! ### Logarithmic depth bounds -/

theorem buildDepth_le :
    ∀ (k l r : Nat) (h : l ≤ r), r - l = k →
      buildDepth l r h ≤ Nat.clog 2 (r + 1 - l) + 1 := by
  intro k
  induction k using Nat.strong_induction_on with
  | _ k ih =>
    intro l r h hk
    rw [buildDepth]
    split
    · next hl => omega
    · next hl =>
      have h1 := ih ((l + r) / 2 - l) (by omega) l ((l + r) / 2) (by omega) rfl
      have h2 := ih (r - ((l + r) / 2 + 1)) (by omega) ((l + r) / 2 + 1) r
        (by omega) rfl
      have hrec : Nat.clog 2 (r + 1 - l) =
          Nat.clog 2 ((r + 1 - l + 2 - 1) / 2) + 1 :=
        Nat.clog_of_two_le (by omega) (by omega)
      have m1 : Nat.clog 2 ((l + r) / 2 + 1 - l) ≤
          Nat.clog 2 ((r + 1 - l + 2 - 1) / 2) :=
        Nat.clog_mono_right 2 (by omega)
      have m2 : Nat.clog 2 (r + 1 - ((l + r) / 2 + 1)) ≤
          Nat.clog 2 ((r + 1 - l + 2 - 1) / 2) :=
        Nat.clog_mono_right 2 (by omega)
      omega

theorem updateDepth_le :
    ∀ (k idx l r : Nat) (h : l ≤ r), r - l = k →
      updateDepth idx l r h ≤ Nat.clog 2 (r + 1 - l) + 1 := by
  intro k
  induction k using Nat.strong_induction_on with
  | _ k ih =>
    intro idx l r h hk
    rw [updateDepth]
    split
    · next hl => omega
    · next hl =>
      have hrec : Nat.clog 2 (r + 1 - l) =
          Nat.clog 2 ((r + 1 - l + 2 - 1) / 2) + 1 :=
        Nat.clog_of_two_le (by omega) (by omega)
      split
      · next hidx =>
        have h1 := ih ((l + r) / 2 - l) (by omega) idx l ((l + r) / 2)
          (by omega) rfl
        have m1 : Nat.clog 2 ((l + r) / 2 + 1 - l) ≤
            Nat.clog 2 ((r + 1 - l + 2 - 1) / 2) :=
          Nat.clog_mono_right 2 (by omega)
        omega
      · next hidx =>
        have h2 := ih (r - ((l + r) / 2 + 1)) (by omega) idx ((l + r) / 2 + 1) r
          (by omega) rfl
        have m2 : Nat.clog 2 (r + 1 - ((l + r) / 2 + 1)) ≤
            Nat.clog 2 ((r + 1 - l + 2 - 1) / 2) :=
          Nat.clog_mono_right 2 (by omega)
        omega

theorem getDepth_le :
    ∀ (k left right l r : Nat)
      (h : l ≤ r ∧ left ≤ r ∧ l ≤ right ∧ left ≤ right), r - l = k →
      getDepth left right l r h ≤ Nat.clog 2 (r + 1 - l) + 1 := by
  intro k
  induction k using Nat.strong_induction_on with
  | _ k ih =>
    intro left right l r h hk
    rw [getDepth]
    split
    · next hc => omega
    · next hc =>
      have hlr : l < r := by omega
      have hrec : Nat.clog 2 (r + 1 - l) =
          Nat.clog 2 ((r + 1 - l + 2 - 1) / 2) + 1 :=
        Nat.clog_of_two_le (by omega) (by omega)
      have m1 : Nat.clog 2 ((l + r) / 2 + 1 - l) ≤
          Nat.clog 2 ((r + 1 - l + 2 - 1) / 2) :=
        Nat.clog_mono_right 2 (by omega)
      have m2 : Nat.clog 2 (r + 1 - ((l + r) / 2 + 1)) ≤
          Nat.clog 2 ((r + 1 - l + 2 - 1) / 2) :=
        Nat.clog_mono_right 2 (by omega)
      split
      · next hm =>
        have h1 := ih ((l + r) / 2 - l) (by omega) left right l ((l + r) / 2)
          (by omega) rfl
        omega
      · split
        · next hm2 =>
          have h2 := ih (r - ((l + r) / 2 + 1)) (by omega) left right
            ((l + r) / 2 + 1) r (by omega) rfl
          omega
        · next hm2 =>
          have h1 := ih ((l + r) / 2 - l) (by omega) left right l ((l + r) / 2)
            (by omega) rfl
          have h2 := ih (r - ((l + r) / 2 + 1)) (by omega) left right
            ((l + r) / 2 + 1) r (by omega) rfl
          omega

/-! ### Equivalence of the two source files -/

theorem part000_build_eq {T : Type} [Zero T] (foo : T → T → T) (vec : List T) :
    ∀ (k : Nat) (tr : Nat → T) (v l r : Nat) (h : l ≤ r), r - l = k →
      part000.build foo vec tr v l r h = build foo vec tr v l r h := by
  intro k
  induction k using Nat.strong_induction_on with
  | _ k ih =>
    intro tr v l r h hk
    rw [part000.build, build]
    split
    · rfl
    · next hl =>
      dsimp only
      rw [ih ((l + r) / 2 - l) (by omega) tr (2 * v) l ((l + r) / 2)
        (by omega) rfl]
      rw [ih (r - ((l + r) / 2 + 1)) (by omega) _ (2 * v + 1) ((l + r) / 2 + 1)
        r (by omega) rfl]

theorem part000_update_eq {T : Type} (foo : T → T → T) (idx : Nat) (val : T) :
    ∀ (k : Nat) (tr : Nat → T) (v l r : Nat) (h : l ≤ r), r - l = k →
      part000.update foo idx val tr v l r h = update foo idx val tr v l r h := by
  intro k
  induction k using Nat.strong_induction_on with
  | _ k ih =>
    intro tr v l r h hk
    rw [part000.update, update]
    split
    · rfl
    · next hl =>
      dsimp only
      split
      · rw [ih ((l + r) / 2 - l) (by omega) tr (2 * v) l ((l + r) / 2)
          (by omega) rfl]
      · rw [ih (r - ((l + r) / 2 + 1)) (by omega) tr (2 * v + 1)
          ((l + r) / 2 + 1) r (by omega) rfl]

theorem part000_getAux_eq {T : Type} (foo : T → T → T) :
    ∀ (k : Nat) (tr : Nat → T) (left right v l r : Nat)
      (h : l ≤ r ∧ left ≤ r ∧ l ≤ right ∧ left ≤ right), r - l = k →
      part000.getAux foo tr left right v l r h =
        getAux foo tr left right v l r h := by
  intro k
  induction k using Nat.strong_induction_on with
  | _ k ih =>
    intro tr left right v l r h hk
    rw [part000.getAux, getAux]
    split
    · rfl
    · next hc =>
      split
      · next hm =>
        exact ih ((l + r) / 2 - l) (by omega) tr left right (2 * v) l
          ((l + r) / 2) (by omega) rfl
      · split
        · next hm2 =>
          exact ih (r - ((l + r) / 2 + 1)) (by omega) tr left right (2 * v + 1)
            ((l + r) / 2 + 1) r (by omega) rfl
        · next hm2 =>
          rw [ih ((l + r) / 2 - l) (by omega) tr left right (2 * v) l
            ((l + r) / 2) (by omega) rfl]
          rw [ih (r - ((l + r) / 2 + 1)) (by omega) tr left right (2 * v + 1)
            ((l + r) / 2 + 1) r (by omega) rfl]

theorem agrees_ofSize {T : Type} [Zero T] (n : Nat) (foo : T → T → T) :
    Agrees (segment_tree.ofSize n foo) (part000.segment_tree.ofSize n foo) :=
  ⟨rfl, rfl, rfl⟩

theorem agrees_ofSizeSum {T : Type} [Zero T] [Add T] (n : Nat) :
    Agrees (segment_tree.ofSizeSum (T := T) n) (part000.segment_tree.ofSizeSum n) :=
  ⟨rfl, rfl, rfl⟩

theorem agrees_ofVec {T : Type} [Zero T] (vec : List T) (foo : T → T → T) :
    Agrees (segment_tree.ofVec vec foo) (part000.segment_tree.ofVec vec foo) := by
  unfold Agrees segment_tree.ofVec part000.segment_tree.ofVec
  by_cases h : vec.length ≠ 0
  · rw [dif_pos h, dif_pos h]
    exact ⟨rfl, (part000_build_eq foo vec (vec.length - 1) (fun _ => 0) 1 0
      (vec.length - 1) (by omega) rfl).symm, rfl⟩
  · rw [dif_neg h, dif_neg h]
    exact ⟨rfl, rfl, rfl⟩

theorem agrees_ofVecSum {T : Type} [Zero T] [Add T] (vec : List T) :
    Agrees (segment_tree.ofVecSum vec) (part000.segment_tree.ofVecSum vec) := by
  unfold Agrees segment_tree.ofVecSum part000.segment_tree.ofVecSum
  by_cases h : vec.length ≠ 0
  · rw [dif_pos h, dif_pos h]
    exact ⟨rfl, (part000_build_eq (fun a b => a + b) vec (vec.length - 1)
      (fun _ => 0) 1 0 (vec.length - 1) (by omega) rfl).symm, rfl⟩
  · rw [dif_neg h, dif_neg h]
    exact ⟨rfl, rfl, rfl⟩

theorem agrees_update_point {T : Type} {st : segment_tree T}
    {st' : part000.segment_tree T} (hag : Agrees st st') (p : Nat) (x : T) :
    Agrees (st.update_point p x) (st'.update_point p x) := by
  obtain ⟨n, tr, foo⟩ := st
  obtain ⟨n', tr', foo'⟩ := st'
  obtain ⟨h1, h2, h3⟩ := hag
  dsimp at h1 h2 h3
  subst h1; subst h2; subst h3
  unfold segment_tree.update_point part000.segment_tree.update_point
  dsimp only
  by_cases hp : p < n
  · rw [dif_pos hp, dif_pos hp]
    exact ⟨rfl, (part000_update_eq foo p x (n - 1) tr 1 0 (n - 1) (by omega)
      rfl).symm, rfl⟩
  · rw [dif_neg hp, dif_neg hp]
    exact ⟨rfl, rfl, rfl⟩

theorem agrees_get {T : Type} [Zero T] {st : segment_tree T}
    {st' : part000.segment_tree T} (hag : Agrees st st') (a b : Nat) :
    st.get a b = st'.get a b := by
  obtain ⟨n, tr, foo⟩ := st
  obtain ⟨n', tr', foo'⟩ := st'
  obtain ⟨h1, h2, h3⟩ := hag
  dsimp at h1 h2 h3
  subst h1; subst h2; subst h3
  unfold segment_tree.get part000.segment_tree.get
  dsimp only
  by_cases hq : a ≤ b ∧ b < n
  · rw [dif_pos hq, dif_pos hq]
    exact (part000_getAux_eq foo (n - 1) tr a b 1 0 (n - 1) (by omega) rfl).symm
  · rw [dif_neg hq, dif_neg hq]

theorem agrees_runOps {T : Type} [Zero T] :
    ∀ (ops : List (Op T)) {st : segment_tree T} {st' : part000.segment_tree T},
      Agrees st st' → segment_tree.runOps st ops =
        part000.segment_tree.runOps st' ops := by
  intro ops
  induction ops with
  | nil => intro st st' hag; rfl
  | cons op rest ih =>
    intro st st' hag
    cases op with
    | upd i x =>
      show segment_tree.runOps (st.update_point i x) rest =
        part000.segment_tree.runOps (st'.update_point i x) rest
      exact ih (agrees_update_point hag i x)
    | query a b =>
      show st.get a b :: segment_tree.runOps st rest =
        st'.get a b :: part000.segment_tree.runOps st' rest
      rw [agrees_get hag a b, ih hag]

/-- Public single-point query on a sound tree returns the current value. -/
theorem get_point_sound {T : Type} [Zero T] {foo : T → T → T} {vals : List T}
    {st : segment_tree T} (hs : Sound foo vals st) (i : Nat) (hi : i < st.n) :
    st.get i i = vals.getD i 0 := by
  obtain ⟨hn, hf, hrep⟩ := hs
  unfold segment_tree.get
  rw [dif_pos ⟨Nat.le_refl i, hi⟩, hf]
  exact getAux_point foo vals (st.n - 1) st.tree i 1 0 (st.n - 1) (by omega)
    rfl (hrep (by omega))

/-- Two sound trees of the same size whose value sequences agree on a query
range answer that query identically. -/
theorem get_congr_sound {T : Type} [Zero T] {foo : T → T → T}
    {vals vals' : List T} {st st' : segment_tree T}
    (hs : Sound foo vals st) (hs' : Sound foo vals' st') (hnn : st.n = st'.n)
    (l r : Nat)
    (hag : ∀ j, l ≤ j → j ≤ r → vals.getD j 0 = vals'.getD j 0) :
    st.get l r = st'.get l r := by
  obtain ⟨sn, str, sf⟩ := st
  obtain ⟨sn', str', sf'⟩ := st'
  obtain ⟨hn, hf, hrep⟩ := hs
  obtain ⟨hn', hf', hrep'⟩ := hs'
  dsimp at hnn hn hf hrep hn' hf' hrep' ⊢
  subst hnn
  unfold segment_tree.get
  dsimp only
  by_cases hq : l ≤ r ∧ r < sn
  · rw [dif_pos hq, dif_pos hq, hf, hf']
    exact getAux_tree_congr foo (sn - 1) str str' l r 1 0 (sn - 1)
      (by omega) rfl (hf ▸ hrep (by omega)) (hf' ▸ hrep' (by omega)) hag
  · rw [dif_neg hq, dif_neg hq]

/-- Combined statement behind C1 and C7: after construction from `values` and
any sequence of point updates, a well-formed query folds the current values. -/
theorem get_after_updates {T : Type} [Zero T] (foo : T → T → T)
    (hassoc : ∀ a b c, foo (foo a b) c = foo a (foo b c))
    (values : List T) (ups : List (Nat × T)) (left right : Nat)
    (h1 : left ≤ right) (h2 : right < values.length) :
    (applyUpdates (segment_tree.ofVec values foo) ups).get left right =
      rangeFold foo (applySets values ups) left right := by
  have hs := sound_applyUpdates ups (sound_ofVec foo values)
  refine get_sound hassoc hs left right h1 ?_
  rw [hs.1, applySets_length]
  exact h2

/-! ### Claims -/

/-- Claim C1: for every tree built from a sequence `values` with an
associative combiner and mutated by any sequence of point updates, and for
all `left ≤ right < n`, `query(left, right)` returns the fold of the current
logical values at positions `left..right` under `combine`, combined in range
order (left partial result passed as the first argument). -/
theorem claim_C1 {T : Type} [Zero T] (foo : T → T → T)
    (hassoc : ∀ a b c, foo (foo a b) c = foo a (foo b c))
    (values : List T) (ups : List (Nat × T)) (left right : Nat)
    (h1 : left ≤ right) (h2 : right < values.length) :
    (applyUpdates (segment_tree.ofVec values foo) ups).get left right =
      rangeFold foo (applySets values ups) left right :=
  get_after_updates foo hassoc values ups left right h1 h2

/-- Witness for C1 at the concrete sum tree over `[2, 4, 1, 42, 9]` after
updating index 2 to 7, querying `[1, 3]`. -/
theorem claim_C1_witness :
    (∀ a b c : Int, (a + b) + c = a + (b + c)) ∧ (1 : Nat) ≤ 3 ∧
    3 < [(2 : Int), 4, 1, 42, 9].length ∧
    (applyUpdates (segment_tree.ofVec [(2 : Int), 4, 1, 42, 9]
        (fun a b => a + b)) [(2, 7)]).get 1 3 =
      rangeFold (fun a b : Int => a + b)
        (applySets [(2 : Int), 4, 1, 42, 9] [(2, 7)]) 1 3 :=
  ⟨fun a b c => add_assoc a b c, by decide, by decide,
    claim_C1 (fun a b : Int => a + b) (fun a b c => add_assoc a b c)
      [(2 : Int), 4, 1, 42, 9] [(2, 7)] 1 3 (by decide) (by decide)⟩

/-- Claim C2: after construction from a sequence (n > 0) and after any number
of `update_point` calls, every internal node `v` covering `[l, r]` with
`l < r` satisfies `tree[v] = combine(tree[2v], tree[2v+1])`, where slot `2v`
covers `[l, mid]` and slot `2v+1` covers `[mid+1, r]` (see `Covers`). -/
theorem claim_C2 {T : Type} [Zero T] (foo : T → T → T) (values : List T)
    (ups : List (Nat × T)) (hn : 0 < values.length) (v l r : Nat)
    (hcov : Covers values.length v l r) (hlr : l < r) :
    (applyUpdates (segment_tree.ofVec values foo) ups).tree v =
      foo ((applyUpdates (segment_tree.ofVec values foo) ups).tree (2 * v))
        ((applyUpdates (segment_tree.ofVec values foo) ups).tree (2 * v + 1)) := by
  obtain ⟨hsn, hsf, hrep⟩ := sound_applyUpdates ups (sound_ofVec foo values)
  have hnn : (applyUpdates (segment_tree.ofVec values foo) ups).n =
      values.length := by
    rw [hsn, applySets_length]
  have hroot := hrep (by omega)
  rw [hnn] at hroot
  have hsub := covers_represents hroot hcov
  cases hsub with
  | leaf _ _ _ => exact ((by omega : False)).elim
  | node _ _ _ hlr' r1 r2 heq => exact heq

/-- Witness for C2 at the root node of the sum tree over `[2, 4, 1, 42, 9]`
after one update. -/
theorem claim_C2_witness :
    0 < [(2 : Int), 4, 1, 42, 9].length ∧ (0 : Nat) < 4 ∧
    (applyUpdates (segment_tree.ofVec [(2 : Int), 4, 1, 42, 9]
        (fun a b => a + b)) [(2, 7)]).tree 1 =
      (fun a b : Int => a + b)
        ((applyUpdates (segment_tree.ofVec [(2 : Int), 4, 1, 42, 9]
          (fun a b => a + b)) [(2, 7)]).tree 2)
        ((applyUpdates (segment_tree.ofVec [(2 : Int), 4, 1, 42, 9]
          (fun a b => a + b)) [(2, 7)]).tree 3) := by
  refine ⟨by decide, by decide, ?_⟩
  have h := claim_C2 (fun a b : Int => a + b) [(2 : Int), 4, 1, 42, 9]
    [(2, 7)] (by decide) 1 0 4 (Covers.root (by decide)) (by decide)
  exact h

/-- Claim C3: after `update_point(index, v)` with a valid `index`, querying
`[index, index]` returns exactly `v`, and every query over a range not
containing `index` returns the same value as before the update. -/
theorem claim_C3 {T : Type} [Zero T] (foo : T → T → T) (values : List T)
    (ups : List (Nat × T)) (index : Nat) (v : T)
    (hidx : index < values.length) (l r : Nat)
    (hout : r < index ∨ index < l) :
    ((applyUpdates (segment_tree.ofVec values foo) ups).update_point index v).get
        index index = v ∧
    ((applyUpdates (segment_tree.ofVec values foo) ups).update_point index v).get
        l r = (applyUpdates (segment_tree.ofVec values foo) ups).get l r := by
  have hs := sound_applyUpdates ups (sound_ofVec foo values)
  have hs' := sound_update_point hs index v
  have hlen : (applySets values ups).length = values.length :=
    applySets_length ups values
  have hn' : ((applyUpdates (segment_tree.ofVec values foo) ups).update_point
      index v).n = (applyUpdates (segment_tree.ofVec values foo) ups).n :=
    update_point_n _ index v
  constructor
  · rw [get_point_sound hs' index (by rw [hn', hs.1, hlen]; exact hidx)]
    exact getD_set_self _ _ _ _ (by rw [hlen]; exact hidx)
  · exact get_congr_sound hs' hs hn' l r
      (fun j hj1 hj2 => getD_set_ne _ _ _ _ _ (by omega))

/-- Witness for C3 on the sum tree over `[2, 4, 1, 42, 9]`: update index 2 to
7, then query `[2, 2]` and the untouched range `[3, 4]`. -/
theorem claim_C3_witness :
    (2 : Nat) < [(2 : Int), 4, 1, 42, 9].length ∧ ((4 : Nat) < 2 ∨ (2 : Nat) < 3) ∧
    ((segment_tree.ofVec [(2 : Int), 4, 1, 42, 9]
        (fun a b => a + b)).update_point 2 7).get 2 2 = 7 ∧
    ((segment_tree.ofVec [(2 : Int), 4, 1, 42, 9]
        (fun a b => a + b)).update_point 2 7).get 3 4 =
      (segment_tree.ofVec [(2 : Int), 4, 1, 42, 9] (fun a b => a + b)).get 3 4 := by
  refine ⟨by decide, Or.inr (by decide), ?_, ?_⟩
  · exact (claim_C3 (fun a b : Int => a + b) [(2 : Int), 4, 1, 42, 9] []
      2 7 (by decide) 3 4 (Or.inr (by decide))).1
  · exact (claim_C3 (fun a b : Int => a + b) [(2 : Int), 4, 1, 42, 9] []
      2 7 (by decide) 3 4 (Or.inr (by decide))).2

/-- Claim C4 counterexample: with the product combiner, an ill-formed range
query returns `T(0) = 0`, which is not the neutral element of the supplied
combiner (the neutral element of multiplication is 1): the claim that the
fallback value is the combiner's identity fails for the product combiner. -/
theorem claim_C4_counterexample :
    (segment_tree.ofVec [(2 : Int), 4, 1, 42, 9] (fun a b => a * b)).get 3 2 = 0 ∧
    ¬ ∀ x : Int, (fun a b : Int => a * b) 0 x = x ∧
      (fun a b : Int => a * b) x 0 = x := by
  constructor
  · decide
  · intro hall
    exact absurd ((hall 1).1) (by decide)

/-- Claim C4 (amended): a query with an ill-formed range — `left > right` or
`right >= n` — returns `T(0)`, the zero/default value of the element type
(which is the neutral element for combiners such as sum, but not for every
combiner, e.g. not for product). -/
theorem claim_C4 {T : Type} [Zero T] (st : segment_tree T) (left right : Nat)
    (h : right < left ∨ st.n ≤ right) : st.get left right = 0 := by
  unfold segment_tree.get
  rw [dif_neg (by omega)]

/-- Witness for C4: a sum tree over `[1]` queried with `left = 1 > 0 = right`. -/
theorem claim_C4_witness :
    ((0 : Nat) < 1 ∨ (segment_tree.ofVec [(1 : Int)] (fun a b => a + b)).n ≤ 0) ∧
    (segment_tree.ofVec [(1 : Int)] (fun a b => a + b)).get 1 0 = 0 :=
  ⟨Or.inl (by decide),
    claim_C4 (segment_tree.ofVec [(1 : Int)] (fun a b => a + b)) 1 0
      (Or.inl (by decide))⟩

/-- Claim C5: `update_point(index, new_value)` with `index >= n` is a silent
no-op: the resulting state (size, every slot, combiner) is the input state. -/
theorem claim_C5 {T : Type} (st : segment_tree T) (index : Nat) (new_value : T)
    (h : st.n ≤ index) : st.update_point index new_value = st := by
  unfold segment_tree.update_point
  rw [dif_neg (by omega)]

/-- Witness for C5: a sum tree over `[1]` with the out-of-range index 5. -/
theorem claim_C5_witness :
    (segment_tree.ofVec [(1 : Int)] (fun a b => a + b)).n ≤ 5 ∧
    (segment_tree.ofVec [(1 : Int)] (fun a b => a + b)).update_point 5 3 =
      segment_tree.ofVec [(1 : Int)] (fun a b => a + b) :=
  ⟨by decide,
    claim_C5 (segment_tree.ofVec [(1 : Int)] (fun a b => a + b)) 5 3 (by decide)⟩

/-- Claim C6 counterexample: on the tree built from the empty sequence with
the product combiner, `query(0, 0)` returns `T(0) = 0`, which is not the
combiner's identity value (the identity of multiplication is 1): the claim
that empty-tree queries return the combiner's identity fails for product. -/
theorem claim_C6_counterexample :
    (segment_tree.ofVec ([] : List Int) (fun a b => a * b)).get 0 0 = 0 ∧
    ¬ ∀ x : Int, (fun a b : Int => a * b) 0 x = x ∧
      (fun a b : Int => a * b) x 0 = x := by
  constructor
  · decide
  · intro hall
    exact absurd ((hall 1).1) (by decide)

/-- Claim C6 (amended): a tree constructed from the empty sequence (n = 0) is
a valid object: every `query` call returns `T(0)` (the element type's
zero/default value, not in general the combiner's identity), and every
`update_point` call is a no-op leaving the tree unchanged. -/
theorem claim_C6 {T : Type} [Zero T] (foo : T → T → T)
    (left right point : Nat) (v : T) :
    (segment_tree.ofVec ([] : List T) foo).get left right = 0 ∧
    (segment_tree.ofVec ([] : List T) foo).update_point point v =
      segment_tree.ofVec ([] : List T) foo := by
  have hn : (segment_tree.ofVec ([] : List T) foo).n = 0 := rfl
  constructor
  · unfold segment_tree.get
    rw [dif_neg (by omega)]
  · unfold segment_tree.update_point
    rw [dif_neg (by omega)]

/-- Claim C7: on the sum tree built from `[2, 4, 1, 42, 9]`, `query(1,3)`
returns 47; after `update_point(2, 7)`, `query(1,3)` returns 53 and
`query(2,3)` returns 49 (not the 43 stated in the reference example's
comment). -/
theorem claim_C7 :
    (segment_tree.ofVecSum [(2 : Int), 4, 1, 42, 9]).get 1 3 = 47 ∧
    ((segment_tree.ofVecSum [(2 : Int), 4, 1, 42, 9]).update_point 2 7).get 1 3 = 53 ∧
    ((segment_tree.ofVecSum [(2 : Int), 4, 1, 42, 9]).update_point 2 7).get 2 3 = 49 := by
  have hassoc : ∀ a b c : Int, (a + b) + c = a + (b + c) :=
    fun a b c => add_assoc a b c
  refine ⟨?_, ?_, ?_⟩
  · exact (get_after_updates (fun a b : Int => a + b) hassoc
      [(2 : Int), 4, 1, 42, 9] [] 1 3 (by decide) (by decide)).trans (by decide)
  · exact (get_after_updates (fun a b : Int => a + b) hassoc
      [(2 : Int), 4, 1, 42, 9] [(2, 7)] 1 3 (by decide) (by decide)).trans (by decide)
  · exact (get_after_updates (fun a b : Int => a + b) hassoc
      [(2 : Int), 4, 1, 42, 9] [(2, 7)] 2 3 (by decide) (by decide)).trans (by decide)

/-- Claim C8: `query(left, right)` performs no mutation: read as a state
transformer (`getSt`, which threads the object state exactly in execution
order), the state it leaves behind is the input state — size, every slot and
the stored combiner included — and its result is the pure query value. -/
theorem claim_C8 {T : Type} [Zero T] (st : segment_tree T) (left right : Nat) :
    (st.getSt left right).2 = st ∧ (st.getSt left right).1 = st.get left right :=
  getSt_spec st left right

/-- Claim C9: the recursions of `build`, `update` and the private `get` are
well founded (the depth functions below, defined by literally the same
recursion and case analysis, are total Lean functions), and the depth of each
is logarithmic in the size of the node range: at most `⌈log₂ size⌉ + 1`. -/
theorem claim_C9 (idx left right l r : Nat) (h : l ≤ r)
    (hq : l ≤ r ∧ left ≤ r ∧ l ≤ right ∧ left ≤ right) :
    buildDepth l r h ≤ Nat.clog 2 (r + 1 - l) + 1 ∧
    updateDepth idx l r h ≤ Nat.clog 2 (r + 1 - l) + 1 ∧
    getDepth left right l r hq ≤ Nat.clog 2 (r + 1 - l) + 1 :=
  ⟨buildDepth_le (r - l) l r h rfl, updateDepth_le (r - l) idx l r h rfl,
    getDepth_le (r - l) left right l r hq rfl⟩

/-- Witness for C9 on the 5-element root range `[0, 4]` with query `[1, 3]`
and update index 2. -/
theorem claim_C9_witness :
    (0 : Nat) ≤ 4 ∧
    buildDepth 0 4 (Nat.zero_le 4) ≤ Nat.clog 2 5 + 1 ∧
    updateDepth 2 0 4 (Nat.zero_le 4) ≤ Nat.clog 2 5 + 1 ∧
    getDepth 1 3 0 4 (by omega) ≤ Nat.clog 2 5 + 1 :=
  ⟨Nat.zero_le 4, claim_C9 2 1 3 0 4 (Nat.zero_le 4) (by omega)⟩

/-- Claim C10: the segment trees of `src/segtree.cpp` and of
`src/unnamed/part_000` are observably equivalent at element type `int`: for
every initial sequence, combiner and size, through each of the four shared
constructors, every sequence of `update_point` / `get` calls produces
identical lists of query results. -/
theorem claim_C10 (vec : List Int) (foo : Int → Int → Int) (n : Nat)
    (ops : List (Op Int)) :
    segment_tree.runOps (segment_tree.ofVec vec foo) ops =
      part000.segment_tree.runOps (part000.segment_tree.ofVec vec foo) ops ∧
    segment_tree.runOps (segment_tree.ofVecSum vec) ops =
      part000.segment_tree.runOps (part000.segment_tree.ofVecSum vec) ops ∧
    segment_tree.runOps (segment_tree.ofSize n foo) ops =
      part000.segment_tree.runOps (part000.segment_tree.ofSize n foo) ops ∧
    segment_tree.runOps (segment_tree.ofSizeSum (T := Int) n) ops =
      part000.segment_tree.runOps (part000.segment_tree.ofSizeSum n) ops :=
  ⟨agrees_runOps ops (agrees_ofVec vec foo),
    agrees_runOps ops (agrees_ofVecSum vec),
    agrees_runOps ops (agrees_ofSize n foo),
    agrees_runOps ops (agrees_ofSizeSum n)⟩
